import Mathlib

/-!
Verification development for the RiskOS morning-briefing pipeline.

The Python sources are embedded shallowly over the rationals:
Python floats and Decimal values are modelled as elements of the rational
numbers, Python round(x, n) and Decimal.quantize (both round-half-to-even)
as exact rational rounding, and the one conversion of a Decimal to a binary
float (float(...) in check_stops.py) as IEEE-754 binary64
round-to-nearest-even, defined exactly on the rationals.
Lists model Python lists; Option models values that may be absent or whose
parsing may fail.  All definitions are executable.
-/

/-- Round-half-to-even of a rational to an integer.  This is the rounding
used by Python round() and by Decimal.quantize in its default context. -/
def rne (q : ℚ) : ℤ :=
  let f := ⌊q⌋
  let r := q - f
  if r < 1/2 then f
  else if 1/2 < r then f + 1
  else if f % 2 = 0 then f else f + 1

/-- Python round(x, 4), as used throughout phase_core.py. -/
def round4 (q : ℚ) : ℚ := (rne (q * 10000) : ℚ) / 10000

/-- Decimal quantize to two decimal places (round half to even), as used by
check_stops.py and portfolio_drawdown.py. -/
def quant2 (q : ℚ) : ℚ := (rne (q * 100) : ℚ) / 100

/-- Base-2 logarithm with explicit fuel (structural recursion, so that
proofs by evaluation can reduce it; Nat.log is defined by well-founded
recursion and does not reduce). -/
def log2Fuel : ℕ → ℕ → ℕ
  | 0, _ => 0
  | fuel + 1, n => if 2 ≤ n then log2Fuel fuel (n / 2) + 1 else 0

/-- Floor of the base-2 logarithm of a natural number (0 for 0 and 1). -/
def natLog2 (n : ℕ) : ℕ := log2Fuel n n

/-- Floor of the base-2 logarithm of a positive rational, computed from
the logarithms of the numerator and denominator with a one-step fix-up.
For every positive q it satisfies 2 ^ intLog2 q ≤ q < 2 ^ (intLog2 q + 1)
(theorem intLog2_bounds). -/
def intLog2 (q : ℚ) : ℤ :=
  let e0 : ℤ := (natLog2 q.num.toNat : ℤ) - (natLog2 q.den : ℤ)
  if q < (2 : ℚ) ^ e0 then e0 - 1
  else if q < (2 : ℚ) ^ (e0 + 1) then e0
  else e0 + 1

/-- Nearest binary64 value of a nonnegative rational below the overflow
threshold: round-to-nearest-even to 53 significant bits (subnormal results
round to a multiple of 2 ^ (-1074)).  Models Python float(Decimal). -/
def float64Pos (q : ℚ) : ℚ :=
  if intLog2 q ≤ -1023 then (rne (q * 2 ^ (1074 : ℕ)) : ℚ) / 2 ^ (1074 : ℕ)
  else (rne (q * (2 : ℚ) ^ ((52 : ℤ) - intLog2 q)) : ℚ) * (2 : ℚ) ^ (intLog2 q - 52)

/-- Nearest binary64 value of a rational (sign-symmetric). -/
def float64 (q : ℚ) : ℚ :=
  if q = 0 then 0
  else if q < 0 then -float64Pos (-q)
  else float64Pos q

/-- Last element of a list of prices, 0 when empty: the Python idiom
prices[-1] if prices else 0.0 used by every indicator fallback. -/
def lastD (l : List ℚ) : ℚ := l.getLastD 0

/-- Exponential moving average, from phase_core.py (ema).  The period is
assumed positive (period 0 raises ZeroDivisionError in the source). -/
def ema (prices : List ℚ) (period : ℕ) : ℚ :=
  if prices = [] ∨ prices.length < period then lastD prices
  else
    let k : ℚ := 2 / ((period : ℚ) + 1)
    let seed : ℚ := (prices.take period).sum / (period : ℚ)
    round4 ((prices.drop period).foldl (fun acc p => (p - acc) * k + acc) seed)

/-- Simple moving average, from phase_core.py (sma). -/
def sma (prices : List ℚ) (period : ℕ) : ℚ :=
  if prices = [] ∨ prices.length < period then lastD prices
  else round4 ((prices.drop (prices.length - period)).sum / (period : ℚ))

/-- Weighted moving average, from phase_core.py (wma): trailing window of
length period with weights 1..period. -/
def wma (prices : List ℚ) (period : ℕ) : ℚ :=
  if prices = [] ∨ prices.length < period then lastD prices
  else
    let window := prices.drop (prices.length - period)
    let weights := List.range' 1 period
    round4 (((weights.zip window).map fun wp => (wp.1 : ℚ) * wp.2).sum
      / ((weights.sum : ℕ) : ℚ))

/-- Floor of the square root of a natural number, the int(period ** 0.5)
of the source (structural definition so proofs by evaluation reduce it;
Nat.sqrt is defined by well-founded recursion and does not reduce). -/
def floorSqrt (n : ℕ) : ℕ :=
  (List.range (n + 1)).foldl (fun acc k => if k * k ≤ n then k else acc) 0

/-- Hull moving average, from phase_core.py (hma).  The source computes
raw values for i in range(period - 1, len(prices)) over the prefix
prices[: i + 1]; here the map runs over the prefix length m = i + 1,
ranging over period, period + 1, ..., len(prices). -/
def hma (prices : List ℚ) (period : ℕ) : ℚ :=
  let half := max 1 (period / 2)
  let s := max 1 (floorSqrt period)
  if prices = [] then 0
  else if prices.length < period + s then round4 (lastD prices)
  else
    let raw := (List.range' period (prices.length - period + 1)).map fun m =>
      2 * wma (prices.take m) half - wma (prices.take m) period
    round4 (wma raw s)

/-- Phase classifier from phase_core.py (get_phase), priority 4, 1, 2, 3, 5
with 5 as the fallback for equality edge cases. -/
def get_phase (price ema10 sma30 hma_val hma_prev : ℚ) : ℕ :=
  if (price > ema10 ∧ price > sma30) ∧ ema10 > sma30 ∧ hma_val < hma_prev then 4
  else if price < ema10 ∧ price < sma30 then 1
  else if price > ema10 ∧ price < sma30 then 2
  else if price > ema10 ∧ price > sma30 then 3
  else if price < ema10 ∧ price > sma30 then 5
  else 5

/-- Nearest-integer square root, the round(sqrt(period)) of the claim
wording for the Hull final window. -/
def roundSqrt (p : ℕ) : ℕ :=
  let n := floorSqrt p
  if n < p - n * n then n + 1 else n

/-- Modelled from the claim wording of C6, for a refinement comparison
against hma: fall back to the latest price unrounded, and take the final
WMA over a window of length round(sqrt(period)) instead of the source's
max(1, floor(sqrt(period))). -/
def hmaSpec (prices : List ℚ) (period : ℕ) : ℚ :=
  let half := period / 2
  if prices = [] then 0
  else if prices.length < period + max 1 (floorSqrt period) then lastD prices
  else
    let raw := (List.range' period (prices.length - period + 1)).map fun m =>
      2 * wma (prices.take m) half - wma (prices.take m) period
    round4 (wma raw (roundSqrt period))

/-- Per-ticker phase analysis record, the payload built by analyze_closes
in phase_core.py (field names follow the JSON keys of the source). -/
structure PhaseRecord where
  ticker : String
  phase : ℕ
  price : ℚ
  ema10 : ℚ
  sma30 : ℚ
  hma : ℚ
  hmaPrev : ℚ
  hmaTrend : String
  hmaCross : String
deriving DecidableEq, Repr

/-- Per-ticker phase analysis from phase_core.py (analyze_closes),
parameterised by the configured periods; with the repository's default
configuration (phase-config.yaml absent) they are 10, 30 and
max(10, 30) = 30.  The insufficient-data error record is modelled as
none. -/
def analyze_closes (ticker : String) (closes : List ℚ)
    (ema_p sma_p hma_p : ℕ) : Option PhaseRecord :=
  if closes = [] ∨ closes.length < sma_p then none
  else
    let price := lastD closes
    let ema10_val := ema closes ema_p
    let sma30_val := sma closes sma_p
    let hma_val := hma closes hma_p
    let hma_prev := if 1 < closes.length then hma closes.dropLast hma_p else hma_val
    let phase := get_phase price ema10_val sma30_val hma_val hma_prev
    let hma_cross :=
      if price < hma_val ∧ price > hma_prev then "bearish"
      else if price > hma_val ∧ price < hma_prev then "bullish"
      else "neutral"
    let hma_trend :=
      if hma_val < hma_prev then "falling"
      else if hma_val > hma_prev then "rising"
      else "flat"
    some ⟨ticker, phase, quant2 price, ema10_val, sma30_val, hma_val, hma_prev,
      hma_trend, hma_cross⟩

/-- Hull-cross decision of the get_phase.py variant (main, lines 124-129):
it compares the previous close against the previous Hull value and the
current close against the current Hull value. -/
def hma_cross_prev (prev_price price hma_val hma_prev : ℚ) : String :=
  if prev_price ≥ hma_prev ∧ price < hma_val then "bearish"
  else if prev_price ≤ hma_prev ∧ price > hma_val then "bullish"
  else "neutral"

/-- Position record consumed by check_stops.py.  currentPrice is the
result of Decimal(str(p.get("currentPrice", 0))): some q when the value
parses (a missing field parses as 0), none when Decimal raises.  stop is
none when the stop field is None (the position is skipped), some none
when a stop is present but does not parse, some (some q) when it parses. -/
structure Position where
  ticker : String
  currentPrice : Option ℚ
  stop : Option (Option ℚ)
deriving DecidableEq

/-- Alert entry produced by check_stops.py; the numeric fields go through
float() in the source, modelled by float64. -/
structure StopAlert where
  ticker : String
  currentPrice : ℚ
  stop : ℚ
  pctToStop : ℚ
  status : String
deriving DecidableEq, Repr

/-- Loop body of check_stops.py main (lines 49-72) for one position:
skip on absent stop, failed parse, or non-positive values; otherwise
status hit / approaching / ok, and an alert entry unless ok.  Note the
source compares float(pct_to_stop), a binary double, against the Decimal
threshold. -/
def processPosition (threshold : ℚ) (p : Position) : Option StopAlert :=
  match p.stop with
  | none => none
  | some stopParse =>
    match p.currentPrice, stopParse with
    | some current, some stop_dec =>
      if current ≤ 0 ∨ stop_dec ≤ 0 then none
      else
        let pct_to_stop := quant2 ((current - stop_dec) / current * 100)
        let status :=
          if current ≤ stop_dec then "hit"
          else if float64 pct_to_stop ≤ threshold then "approaching"
          else "ok"
        if status ≠ "ok" then
          some ⟨p.ticker, float64 current, float64 stop_dec, float64 pct_to_stop, status⟩
        else none
    | _, _ => none

/-- Alert list of check_stops.py main over a position list. -/
def check_stops (threshold : ℚ) (positions : List Position) : List StopAlert :=
  positions.filterMap (processPosition threshold)

/-- Output of portfolio_drawdown.py main: reported percentage and alert flag. -/
structure DrawdownOut where
  dailyPnlPct : ℚ
  alert : Bool
deriving DecidableEq, Repr

/-- Drawdown evaluation from portfolio_drawdown.py main (lines 28-50):
the alert compares the raw Decimal value against -threshold; the
quantization to two decimals is applied only to the reported value
(which then goes through float()). -/
def portfolio_drawdown (threshold pnl : ℚ) : DrawdownOut :=
  { dailyPnlPct := float64 (quant2 pnl), alert := decide (pnl < -threshold) }

/-- JSON-like values, for the persisted briefing state and the fields the
aggregator inspects dynamically. -/
inductive Json where
  | str (s : String)
  | num (q : ℚ)
  | jbool (b : Bool)
  | null
  | arr (xs : List Json)
  | obj (fields : List (String × Json))

/-- Truth test for a Json value being a dict, as Python isinstance checks. -/
def Json.isObj : Json → Bool
  | .obj _ => true
  | _ => false

/-- Comparison of a dynamic value against a string literal, the Python
expression value == "literal" for a value taken from a dict. -/
def jsonEqStr (j : Json) (s : String) : Bool :=
  match j with
  | .str t => t == s
  | _ => false

/-- Outcome of reading and JSON-parsing the state file: the file may be
absent, reading or parsing may raise (failure), or a document is parsed. -/
inductive ReadResult where
  | absent
  | failure
  | ok (j : Json)

/-- State loader from run_morning_brief.py (load_state, lines 107-114):
absent file, any exception while reading or parsing, and any parsed
document that is not an object all yield the empty state. -/
def load_state (r : ReadResult) : List (String × Json) :=
  match r with
  | .absent => []
  | .failure => []
  | .ok (.obj fields) => fields
  | .ok _ => []

/-- Extraction of the prior phase map (run_morning_brief.py lines 266-268):
the phaseByTicker entry if it is a dict, else the empty map. -/
def phaseByTickerOf (state : List (String × Json)) : List (String × Json) :=
  match state.lookup "phaseByTicker" with
  | some (.obj f) => f
  | _ => []

/-- Extraction of the persisted fingerprint list (lines 304-306): the
newsHashes entry if it is a list, else the empty list. -/
def newsHashesOf (state : List (String × Json)) : List Json :=
  match state.lookup "newsHashes" with
  | some (.arr xs) => xs
  | _ => []

/-- Python str() over a state value, used when building the previous-run
fingerprint set (line 307).  The state files the program itself writes hold
only strings here; rendering of numbers and containers is simplified. -/
def jsonStr (j : Json) : String :=
  match j with
  | .str s => s
  | .num q => toString q
  | .jbool b => if b then "True" else "False"
  | .null => "None"
  | .arr _ => "[...]"
  | .obj _ => "\x7b...\x7d"

/-- Python int(value) over a dynamic value, the phase_as_int helper of
run_morning_brief.py (lines 122-126): integers come back exact, floats
truncate toward zero, integer strings parse, booleans map to 0/1, and
everything else (including None for a missing key) yields none. -/
def phase_as_int (j : Json) : Option ℤ :=
  match j with
  | .num q => some (q.num.tdiv q.den)
  | .str s => s.toInt?
  | .jbool b => some (if b then 1 else 0)
  | _ => none

/-- Order-preserving de-duplication by exact string identity, the
unique_lines helper of run_morning_brief.py (lines 96-104). -/
def unique_lines (lines : List String) : List String :=
  lines.foldl (fun acc line => if line ∈ acc then acc else acc ++ [line]) []

/-- Stable insertion of an element into a list: the element lands after
every earlier element that compares less-or-equal. -/
def insertLe (le : α → α → Bool) (x : α) : List α → List α
  | [] => [x]
  | y :: t => if le y x then y :: insertLe le x t else x :: y :: t

/-- Stable ascending sort (insertion sort), modelling Python sorted(...);
structural recursion so proofs by evaluation can reduce it. -/
def stableSort (le : α → α → Bool) (l : List α) : List α :=
  l.foldl (fun acc x => insertLe le x acc) []

/-- Persisted fingerprint update of run_morning_brief.py (line 418):
sorted(set(all_headline_hashes))[-500:].  The previous run's fingerprints
(prevHashes, in scope in the source) are not consulted here; the parameter
is retained to mirror the data available at the persistence point. -/
def persisted_news_hashes (_prevHashes all_digests : List String) : List String :=
  let sortedHashes := stableSort (fun a b => decide (a ≤ b)) all_digests.dedup
  sortedHashes.drop (sortedHashes.length - 500)

/-- Filter for first-seen fingerprints (lines 309-315): a digest is new
when it is not in the previous run's persisted set. -/
def new_digests (prevHashes all_digests : List String) : List String :=
  all_digests.filter (fun d => decide (d ∉ prevHashes))

/-- Default hard phase-transition pairs of load_phase_transition_pairs
(run_morning_brief.py lines 157-180) when the risk-rules config is absent
or unusable. -/
def default_phase_transition_pairs : List (ℤ × ℤ) := [(3, 4), (4, 5)]

/-- One row of the phases payload as inspected by the aggregator loop;
dynamic fields keep their Json form (a missing key reads as null). -/
structure PhaseRow where
  ticker : String
  phase : Json
  hmaTrend : Json
  hmaCross : Json
  err : Bool

/-- Accumulated outputs of the aggregator loop over phase rows. -/
structure LoopOut where
  transitions : List String
  hard : List String
  watch : List String

/-- Body of the per-row aggregator loop of run_morning_brief.py
(lines 270-292): transition detection against the prior phase map, routing
to hard alerts or watch flags by the configured pair set, then the
phase-4/5/3-falling watch flags and the bearish-cross watch flag. -/
def phase_row_step (prevMap : List (String × Json)) (pairs : List (ℤ × ℤ))
    (acc : LoopOut) (row : PhaseRow) : LoopOut :=
  let phase := phase_as_int row.phase
  let previous := ((prevMap.lookup row.ticker).map phase_as_int).join
  let acc1 :=
    match previous, phase with
    | some pv, some cv =>
      if cv ≠ pv then
        let transition := s!"{row.ticker} phase transition {pv} -> {cv}"
        if (pv, cv) ∈ pairs then
          { acc with transitions := acc.transitions ++ [transition],
                     hard := acc.hard ++ [s!"Phase alert: {transition} (hard-alert transition)."] }
        else
          { acc with transitions := acc.transitions ++ [transition],
                     watch := acc.watch ++ [transition ++ "."] }
      else acc
    | _, _ => acc
  let acc2 :=
    if phase = some 4 then
      { acc1 with watch := acc1.watch ++ [s!"{row.ticker} is in Phase 4 (weakening trend; Hull is falling)."] }
    else if phase = some 5 then
      { acc1 with watch := acc1.watch ++ [s!"{row.ticker} is in Phase 5 (pullback below 10EMA while above 30SMA)."] }
    else if phase = some 3 ∧ jsonEqStr row.hmaTrend "falling" then
      { acc1 with watch := acc1.watch ++ [s!"{row.ticker} remains Phase 3, but Hull slope is falling."] }
    else acc1
  if jsonEqStr row.hmaCross "bearish" then
    { acc2 with watch := acc2.watch ++ [s!"{row.ticker} shows bearish HMA cross behavior."] }
  else acc2

/-- Aggregator loop of run_morning_brief.py (lines 264-292): error rows are
dropped, the rest are processed in ascending ticker order; hard alerts
accumulate onto the already collected ones, transitions and watch flags
start empty. -/
def process_phase_rows (prevMap : List (String × Json)) (pairs : List (ℤ × ℤ))
    (rows : List PhaseRow) (hardInit : List String) : LoopOut :=
  let phase_rows := rows.filter (fun r => !r.err)
  let sortedRows := stableSort (fun a b => decide (a.ticker ≤ b.ticker)) phase_rows
  sortedRows.foldl (phase_row_step prevMap pairs) ⟨[], hardInit, []⟩

theorem lastD_replicate (n : ℕ) (c : ℚ) (hn : 0 < n) :
    lastD (List.replicate n c) = c := by
  obtain ⟨m, rfl⟩ := Nat.exists_eq_succ_of_ne_zero (Nat.pos_iff_ne_zero.mp hn)
  simp [lastD, List.replicate_succ']

theorem foldl_ema_const (k c : ℚ) (m : ℕ) :
    (List.replicate m c).foldl (fun acc p => (p - acc) * k + acc) c = c := by
  induction m with
  | zero => rfl
  | succ m ih => simpa [List.replicate_succ] using ih

theorem wsum_zip_replicate (ws : List ℕ) (c : ℚ) :
    ((ws.zip (List.replicate ws.length c)).map fun wp => (wp.1 : ℚ) * wp.2).sum
      = ((ws.sum : ℕ) : ℚ) * c := by
  induction ws with
  | nil => simp
  | cons w t ih =>
      simp only [List.length_cons, List.replicate_succ, List.zip_cons_cons,
        List.map_cons, List.sum_cons, ih, List.sum_cons]
      push_cast
      ring

theorem range'_one_sum_pos (p : ℕ) (hp : 1 ≤ p) : 0 < (List.range' 1 p).sum := by
  obtain ⟨m, rfl⟩ := Nat.exists_eq_succ_of_ne_zero (Nat.pos_iff_ne_zero.mp hp)
  rw [List.range'_succ]
  simp

/-- C1: for every input tuple the phase classifier returns exactly one value,
which lies in {1,2,3,4,5}, and it returns 4 precisely when price is above
both moving averages, the short average is above the long one, and the Hull
value is below its previous value. -/
theorem get_phase_total_partition (price ema10 sma30 hv hp : ℚ) :
    (get_phase price ema10 sma30 hv hp = 1 ∨ get_phase price ema10 sma30 hv hp = 2 ∨
     get_phase price ema10 sma30 hv hp = 3 ∨ get_phase price ema10 sma30 hv hp = 4 ∨
     get_phase price ema10 sma30 hv hp = 5) ∧
    (get_phase price ema10 sma30 hv hp = 4 ↔
      price > ema10 ∧ price > sma30 ∧ ema10 > sma30 ∧ hv < hp) := by
  unfold get_phase
  split_ifs with h1 h2 h3 h4 h5 <;> simp_all

unseal Rat.mul Rat.add Rat.sub Rat.inv in
/-- C9 counterexample: on the constant sequence with value 3/25000 and
period 1, sma, ema and wma all return round4(3/25000) = 1/10000, not the
constant itself as the claim states. -/
theorem sma_ema_wma_const_not_exact :
    sma [(3:ℚ)/25000] 1 ≠ (3:ℚ)/25000 ∧
    ema [(3:ℚ)/25000] 1 ≠ (3:ℚ)/25000 ∧
    wma [(3:ℚ)/25000] 1 ≠ (3:ℚ)/25000 := by
  decide

/-- C9 amended: on a constant sequence of positive length, sma, ema and wma
return the constant itself in the short-data fallback (length below
period) and the constant rounded to four decimal places otherwise; in
particular they return the constant exactly whenever it is a multiple of
1/10000. -/
theorem sma_ema_wma_const (c : ℚ) (n period : ℕ) (hp : 1 ≤ period) (hn : 0 < n) :
    sma (List.replicate n c) period = (if n < period then c else round4 c) ∧
    ema (List.replicate n c) period = (if n < period then c else round4 c) ∧
    wma (List.replicate n c) period = (if n < period then c else round4 c) := by
  have hne : List.replicate n c ≠ [] := by
    intro h
    have := congrArg List.length h
    simp at this
    omega
  have hpQ : ((period : ℚ)) ≠ 0 := by
    exact_mod_cast Nat.pos_iff_ne_zero.mp hp
  by_cases hnp : n < period
  · have hguard : List.replicate n c = [] ∨ (List.replicate n c).length < period := by
      right; simpa using hnp
    rw [if_pos hnp]
    refine ⟨?_, ?_, ?_⟩ <;>
      simp only [sma, ema, wma, if_pos hguard, lastD_replicate n c hn]
  · have hple : period ≤ n := Nat.le_of_not_lt hnp
    have hguard : ¬ (List.replicate n c = [] ∨ (List.replicate n c).length < period) := by
      push_neg
      exact ⟨hne, by simpa using hnp⟩
    rw [if_neg hnp]
    refine ⟨?_, ?_, ?_⟩
    · rw [sma, if_neg hguard]
      have hwin : (List.replicate n c).drop ((List.replicate n c).length - period)
          = List.replicate period c := by
        simp [List.drop_replicate]
        omega
      rw [hwin, List.sum_replicate]
      rw [nsmul_eq_mul, mul_comm, mul_div_assoc, div_self hpQ, mul_one]
    · rw [ema, if_neg hguard]
      have htake : (List.replicate n c).take period = List.replicate period c := by
        simp [List.take_replicate]
        omega
      have hdrop : (List.replicate n c).drop period = List.replicate (n - period) c := by
        simp [List.drop_replicate]
      have hseed : ((List.replicate n c).take period).sum / (period : ℚ) = c := by
        rw [htake, List.sum_replicate, nsmul_eq_mul, mul_comm, mul_div_assoc,
          div_self hpQ, mul_one]
      dsimp only
      rw [hseed, hdrop, foldl_ema_const]
    · rw [wma, if_neg hguard]
      dsimp only
      have hwin : (List.replicate n c).drop ((List.replicate n c).length - period)
          = List.replicate (List.range' 1 period).length c := by
        simp [List.drop_replicate]
        omega
      have hS : (((List.range' 1 period).sum : ℕ) : ℚ) ≠ 0 := by
        have := range'_one_sum_pos period hp
        exact_mod_cast Nat.pos_iff_ne_zero.mp this
      rw [hwin, wsum_zip_replicate, mul_comm, mul_div_assoc, div_self hS, mul_one]

unseal Rat.mul Rat.add Rat.sub Rat.inv in
/-- C9 witness: the amended statement applied at the constant 7, length 2,
period 1. -/
theorem sma_ema_wma_const_witness :
    ((1 : ℕ) ≤ 1 ∧ (0 : ℕ) < 2) ∧
    (sma (List.replicate 2 (7:ℚ)) 1 = (if 2 < 1 then (7:ℚ) else round4 7) ∧
     ema (List.replicate 2 (7:ℚ)) 1 = (if 2 < 1 then (7:ℚ) else round4 7) ∧
     wma (List.replicate 2 (7:ℚ)) 1 = (if 2 < 1 then (7:ℚ) else round4 7)) :=
  ⟨⟨le_refl 1, by decide⟩, sma_ema_wma_const 7 2 1 (le_refl 1) (by decide)⟩

unseal Rat.mul Rat.add Rat.sub Rat.inv in
/-- C6 counterexample: the Hull fallback returns the latest price rounded
to four decimals, not the latest price itself; and with period 7 the
source takes the final WMA window from floor(sqrt 7) = 2, so it differs
from the claim's round(sqrt 7) = 3 formulation (hmaSpec). -/
theorem hma_deviates_from_claim_formula :
    hma [(3:ℚ)/25000] 2 ≠ (3:ℚ)/25000 ∧
    hma [1,2,3,4,5,6,7,8,100] 7 ≠ hmaSpec [1,2,3,4,5,6,7,8,100] 7 := by
  decide

/-- C6 amended: hma returns 0 on an empty sequence; with fewer than
period + max(1, floor(sqrt(period))) prices it returns the latest price
rounded to four decimals; and with enough data it is the four-decimal
rounding of the WMA, over a window of max(1, floor(sqrt(period))), of the
raw series built from the prefix WMAs with periods max(1, period/2) and
period. -/
theorem hma_characterisation (prices : List ℚ) (period : ℕ) :
    hma [] period = 0 ∧
    (prices ≠ [] → prices.length < period + max 1 (floorSqrt period) →
      hma prices period = round4 (lastD prices)) ∧
    (period + max 1 (floorSqrt period) ≤ prices.length →
      hma prices period =
        round4 (wma ((List.range (prices.length - period + 1)).map fun j =>
          2 * wma (prices.take (period + j)) (max 1 (period / 2))
            - wma (prices.take (period + j)) period) (max 1 (floorSqrt period)))) := by
  refine ⟨by simp [hma], ?_, ?_⟩
  · intro hne hlt
    rw [hma]
    dsimp only
    rw [if_neg hne, if_pos hlt]
  · intro hge
    have hne : prices ≠ [] := by
      intro h
      subst h
      simp at hge
    have hnlt : ¬ prices.length < period + max 1 (floorSqrt period) :=
      Nat.not_lt.mpr hge
    rw [hma]
    dsimp only
    rw [if_neg hne, if_neg hnlt, List.range'_eq_map_range, List.map_map]
    simp only [Function.comp_def]

unseal Rat.mul Rat.add Rat.sub Rat.inv in
/-- C6 witness: the characterisation applied at period 7, for the fallback
on a one-element list and for the full formula on a nine-element list. -/
theorem hma_characterisation_witness :
    ([(1:ℚ)] ≠ ([] : List ℚ)) ∧ ([(1:ℚ)].length < 7 + max 1 (floorSqrt 7)) ∧
    hma [(1:ℚ)] 7 = round4 (lastD [(1:ℚ)]) ∧
    (7 + max 1 (floorSqrt 7) ≤ ([1,2,3,4,5,6,7,8,100] : List ℚ).length) ∧
    hma ([1,2,3,4,5,6,7,8,100] : List ℚ) 7 =
      round4 (wma ((List.range (([1,2,3,4,5,6,7,8,100] : List ℚ).length - 7 + 1)).map fun j =>
        2 * wma (([1,2,3,4,5,6,7,8,100] : List ℚ).take (7 + j)) (max 1 (7 / 2))
          - wma (([1,2,3,4,5,6,7,8,100] : List ℚ).take (7 + j)) 7) (max 1 (floorSqrt 7))) :=
  ⟨by decide, by decide,
   (hma_characterisation [(1:ℚ)] 7).2.1 (by decide) (by decide),
   by decide,
   (hma_characterisation [1,2,3,4,5,6,7,8,100] 7).2.2 (by decide)⟩

/-- Upper bound of round-half-to-even: it moves its argument by at most
one half. -/
theorem rne_le (q : ℚ) : (rne q : ℚ) ≤ q + 1/2 := by
  have h1 : ((⌊q⌋ : ℤ) : ℚ) ≤ q := Int.floor_le q
  have h2 : q < (⌊q⌋ : ℤ) + 1 := Int.lt_floor_add_one q
  unfold rne
  dsimp only
  split_ifs <;> push_cast <;> linarith

/-- Lower bound of round-half-to-even. -/
theorem le_rne (q : ℚ) : q - 1/2 ≤ (rne q : ℚ) := by
  have h1 : ((⌊q⌋ : ℤ) : ℚ) ≤ q := Int.floor_le q
  have h2 : q < (⌊q⌋ : ℤ) + 1 := Int.lt_floor_add_one q
  unfold rne
  dsimp only
  split_ifs <;> push_cast <;> linarith

/-- With enough fuel, log2Fuel computes the floor base-2 logarithm. -/
theorem log2Fuel_bounds : ∀ fuel n, 1 ≤ n → n ≤ fuel →
    2 ^ log2Fuel fuel n ≤ n ∧ n < 2 ^ (log2Fuel fuel n + 1) := by
  intro fuel
  induction fuel with
  | zero => intro n h1 h2; omega
  | succ fuel ih =>
      intro n h1 h2
      rw [log2Fuel]
      by_cases h : 2 ≤ n
      · rw [if_pos h]
        have hrec := ih (n / 2) (by omega) (by omega)
        obtain ⟨ha, hb⟩ := hrec
        constructor
        · calc 2 ^ (log2Fuel fuel (n / 2) + 1) = 2 * 2 ^ (log2Fuel fuel (n / 2)) := by ring
            _ ≤ 2 * (n / 2) := by omega
            _ ≤ n := by omega
        · have : n / 2 + 1 ≤ 2 ^ (log2Fuel fuel (n / 2) + 1) := hb
          calc n < 2 * (n / 2) + 2 := by omega
            _ ≤ 2 * 2 ^ (log2Fuel fuel (n / 2) + 1) := by omega
            _ = 2 ^ (log2Fuel fuel (n / 2) + 1 + 1) := by ring
      · rw [if_neg h]
        constructor <;> simp <;> omega

/-- Bracketing property of natLog2 on positive numbers. -/
theorem natLog2_bounds (n : ℕ) (hn : 1 ≤ n) :
    2 ^ natLog2 n ≤ n ∧ n < 2 ^ (natLog2 n + 1) :=
  log2Fuel_bounds n n hn (le_refl n)

/-- Bracketing property of intLog2: it is the floor base-2 logarithm of
any positive rational. -/
theorem intLog2_bounds (q : ℚ) (hq : 0 < q) :
    (2 : ℚ) ^ intLog2 q ≤ q ∧ q < (2 : ℚ) ^ (intLog2 q + 1) := by
  have hnum : 0 < q.num := Rat.num_pos.mpr hq
  have ha1 : 1 ≤ q.num.toNat := by omega
  have hb1 : 1 ≤ q.den := q.pos
  obtain ⟨hA1, hA2⟩ := natLog2_bounds q.num.toNat ha1
  obtain ⟨hB1, hB2⟩ := natLog2_bounds q.den hb1
  set la := natLog2 q.num.toNat with hla
  set lb := natLog2 q.den with hlb
  have hAq : ((2 : ℚ) ^ la ≤ (q.num.toNat : ℚ)) ∧ ((q.num.toNat : ℚ)) < 2 ^ (la + 1) := by
    constructor <;> exact_mod_cast (by assumption)
  have hBq : ((2 : ℚ) ^ lb ≤ (q.den : ℚ)) ∧ ((q.den : ℚ)) < 2 ^ (lb + 1) := by
    constructor <;> exact_mod_cast (by assumption)
  have hdenpos : (0 : ℚ) < (q.den : ℚ) := by exact_mod_cast hb1
  have hnumQ : ((q.num.toNat : ℚ)) = (q.num : ℚ) := by
    have : (q.num.toNat : ℤ) = q.num := Int.toNat_of_nonneg (le_of_lt hnum)
    exact_mod_cast this
  have hqeq : q = (q.num.toNat : ℚ) / (q.den : ℚ) := by
    rw [hnumQ, Rat.num_div_den]
  -- open bounds: 2 ^ (la - lb - 1) < q < 2 ^ (la - lb + 1)
  have hlow : (2 : ℚ) ^ ((la : ℤ) - (lb : ℤ) - 1) < q := by
    rw [hqeq]
    rw [div_eq_mul_inv]
    have h1 : (2 : ℚ) ^ ((la : ℤ) - (lb : ℤ) - 1) = 2 ^ (la : ℤ) / 2 ^ ((lb : ℤ) + 1) := by
      rw [div_eq_mul_inv, ← zpow_neg, ← zpow_add₀ (by norm_num : (2:ℚ) ≠ 0)]
      ring_nf
    rw [h1, div_lt_iff (by positivity)]
    have h2 : ((q.den : ℚ)) < 2 ^ ((lb : ℤ) + 1) := by
      have := hBq.2
      rw [show ((lb : ℤ) + 1) = ((lb + 1 : ℕ) : ℤ) by push_cast; ring, zpow_natCast]
      exact this
    have h3 : (2 : ℚ) ^ (la : ℤ) ≤ (q.num.toNat : ℚ) := by
      rw [zpow_natCast]; exact hAq.1
    have hnpos : (0 : ℚ) < (q.num.toNat : ℚ) := by
      have : (0 : ℕ) < q.num.toNat := by omega
      exact_mod_cast this
    calc (2 : ℚ) ^ (la : ℤ) ≤ (q.num.toNat : ℚ) := h3
      _ = (q.num.toNat : ℚ) * ((q.den : ℚ))⁻¹ * (q.den : ℚ) := by
          field_simp
      _ < (q.num.toNat : ℚ) * ((q.den : ℚ))⁻¹ * 2 ^ ((lb : ℤ) + 1) := by
          apply mul_lt_mul_of_pos_left h2
          positivity
  have hhigh : q < (2 : ℚ) ^ ((la : ℤ) - (lb : ℤ) + 1) := by
    rw [hqeq]
    have h1 : (2 : ℚ) ^ ((la : ℤ) - (lb : ℤ) + 1) = 2 ^ ((la : ℤ) + 1) / 2 ^ (lb : ℤ) := by
      rw [div_eq_mul_inv, ← zpow_neg, ← zpow_add₀ (by norm_num : (2:ℚ) ≠ 0)]
      ring_nf
    rw [h1, div_lt_div_iff hdenpos (by positivity)]
    have h2 : ((q.num.toNat : ℚ)) < 2 ^ ((la : ℤ) + 1) := by
      rw [show ((la : ℤ) + 1) = ((la + 1 : ℕ) : ℤ) by push_cast; ring, zpow_natCast]
      exact hAq.2
    have h3 : (2 : ℚ) ^ (lb : ℤ) ≤ (q.den : ℚ) := by
      rw [zpow_natCast]; exact hBq.1
    calc (q.num.toNat : ℚ) * 2 ^ (lb : ℤ)
        ≤ (q.num.toNat : ℚ) * (q.den : ℚ) := by
          apply mul_le_mul_of_nonneg_left h3
          positivity
      _ < 2 ^ ((la : ℤ) + 1) * (q.den : ℚ) := by
          apply mul_lt_mul_of_pos_right h2 hdenpos
  -- now case on the fix-up
  have hunf : intLog2 q =
      (if q < (2 : ℚ) ^ ((la : ℤ) - (lb : ℤ)) then (la : ℤ) - (lb : ℤ) - 1
       else if q < (2 : ℚ) ^ ((la : ℤ) - (lb : ℤ) + 1) then (la : ℤ) - (lb : ℤ)
       else (la : ℤ) - (lb : ℤ) + 1) := rfl
  rcases lt_or_le q ((2 : ℚ) ^ ((la : ℤ) - (lb : ℤ))) with hc1 | hc1
  · rw [hunf, if_pos hc1]
    exact ⟨le_of_lt hlow, by simpa using hc1⟩
  · rw [hunf, if_neg (not_lt.mpr hc1), if_pos hhigh]
    exact ⟨hc1, hhigh⟩

/-- Rounding error of the binary64 conversion in the normal range: the
result differs from the input by at most half an ulp, 2 ^ (e - 53). -/
theorem float64Pos_bounds (q : ℚ) (hnorm : ¬ intLog2 q ≤ -1023) :
    q - (2 : ℚ) ^ (intLog2 q - 53) ≤ float64Pos q ∧
    float64Pos q ≤ q + (2 : ℚ) ^ (intLog2 q - 53) := by
  rw [float64Pos, if_neg hnorm]
  set e := intLog2 q with he
  set x := q * (2 : ℚ) ^ ((52 : ℤ) - e) with hx
  have hp : (0 : ℚ) < (2 : ℚ) ^ (e - 52) := by positivity
  have hcancel : (2 : ℚ) ^ ((52 : ℤ) - e) * (2 : ℚ) ^ (e - 52) = 1 := by
    rw [← zpow_add₀ (by norm_num : (2:ℚ) ≠ 0)]
    norm_num
  have hhalf : (1 : ℚ) / 2 * (2 : ℚ) ^ (e - 52) = (2 : ℚ) ^ (e - 53) := by
    have : (1 : ℚ) / 2 = (2 : ℚ) ^ (-1 : ℤ) := by norm_num
    rw [this, ← zpow_add₀ (by norm_num : (2:ℚ) ≠ 0)]
    ring_nf
  constructor
  · have h := le_rne x
    have := mul_le_mul_of_nonneg_right h (le_of_lt hp)
    calc q - (2 : ℚ) ^ (e - 53) = (x - 1/2) * (2 : ℚ) ^ (e - 52) := by
          rw [sub_mul, hx, mul_assoc, hcancel, mul_one, hhalf]
      _ ≤ (rne x : ℚ) * (2 : ℚ) ^ (e - 52) := this
  · have h := rne_le x
    have := mul_le_mul_of_nonneg_right h (le_of_lt hp)
    calc (rne x : ℚ) * (2 : ℚ) ^ (e - 52) ≤ (x + 1/2) * (2 : ℚ) ^ (e - 52) := this
      _ = q + (2 : ℚ) ^ (e - 53) := by
          rw [add_mul, hx, mul_assoc, hcancel, mul_one, hhalf]

set_option maxRecDepth 8000 in
unseal Rat.mul Rat.add Rat.sub Rat.inv in
/-- Evaluation fact: 500/100 = 5 is exactly representable in binary64. -/
theorem float64Pos_five : float64Pos ((500 : ℚ) / 100) ≤ 5 := by decide

/-- At the default threshold 5, comparing the binary64 image of a
two-decimal percentage in [0, 100] against 5 agrees with the exact
comparison: 5 is representable and the grid spacing 1/100 dominates the
conversion error. -/
theorem float64_le_five_iff (k : ℕ) (hk : k ≤ 10000) :
    (float64 ((k : ℚ) / 100) ≤ 5 ↔ ((k : ℚ) / 100 ≤ 5)) := by
  by_cases hk0 : k = 0
  · subst hk0
    have hz : ((0 : ℕ) : ℚ) / 100 = 0 := by norm_num
    rw [hz]
    rw [show float64 0 = 0 from by rw [float64, if_pos rfl]]
  · have hkpos : 1 ≤ k := Nat.one_le_iff_ne_zero.mpr hk0
    have hq : 0 < (k : ℚ) / 100 := by
      have : (0 : ℚ) < (k : ℚ) := by exact_mod_cast Nat.pos_of_ne_zero hk0
      positivity
    have hqle : (k : ℚ) / 100 ≤ 100 := by
      rw [div_le_iff (by norm_num : (0:ℚ) < 100)]
      have : ((k : ℕ) : ℚ) ≤ ((10000 : ℕ) : ℚ) := by exact_mod_cast hk
      push_cast at this
      linarith
    have hqge : (1 : ℚ) / 100 ≤ (k : ℚ) / 100 := by
      have : ((1 : ℕ) : ℚ) ≤ ((k : ℕ) : ℚ) := by exact_mod_cast hkpos
      push_cast at this
      gcongr
    obtain ⟨hlo, hhi⟩ := intLog2_bounds ((k : ℚ) / 100) hq
    have he6 : intLog2 ((k : ℚ) / 100) ≤ 6 := by
      by_contra h
      push_neg at h
      have h7 : (7 : ℤ) ≤ intLog2 ((k : ℚ) / 100) := by omega
      have hstep : (2 : ℚ) ^ (7 : ℤ) ≤ (2 : ℚ) ^ intLog2 ((k : ℚ) / 100) :=
        zpow_le_zpow_right₀ (by norm_num) h7
      have : (2 : ℚ) ^ (7 : ℤ) ≤ (k : ℚ) / 100 := le_trans hstep hlo
      have h128 : (2 : ℚ) ^ (7 : ℤ) = 128 := by norm_num
      rw [h128] at this
      linarith
    have he7 : (-7 : ℤ) ≤ intLog2 ((k : ℚ) / 100) := by
      by_contra h
      push_neg at h
      have hstep : (2 : ℚ) ^ (intLog2 ((k : ℚ) / 100) + 1) ≤ (2 : ℚ) ^ (-7 : ℤ) :=
        zpow_le_zpow_right₀ (by norm_num) (by omega)
      have hlt : (k : ℚ) / 100 < (2 : ℚ) ^ (-7 : ℤ) := lt_of_lt_of_le hhi hstep
      have h128 : (2 : ℚ) ^ (-7 : ℤ) = 1 / 128 := by norm_num
      rw [h128] at hlt
      linarith
    have hnorm : ¬ intLog2 ((k : ℚ) / 100) ≤ -1023 := by omega
    obtain ⟨herr1, herr2⟩ := float64Pos_bounds ((k : ℚ) / 100) hnorm
    have hesmall : (2 : ℚ) ^ (intLog2 ((k : ℚ) / 100) - 53) ≤ (2 : ℚ) ^ (-47 : ℤ) :=
      zpow_le_zpow_right₀ (by norm_num) (by omega)
    have h47 : (2 : ℚ) ^ (-47 : ℤ) < 1 / 200 := by
      rw [show (2 : ℚ) ^ (-47 : ℤ) = 1 / 2 ^ (47 : ℕ) from by
        rw [zpow_neg, one_div]
        norm_num]
      norm_num
    have hfp : float64 ((k : ℚ) / 100) = float64Pos ((k : ℚ) / 100) := by
      rw [float64, if_neg (ne_of_gt hq), if_neg (not_lt.mpr (le_of_lt hq))]
    rw [hfp]
    constructor
    · intro hle
      by_contra hq5
      push_neg at hq5
      have hk500 : 500 < k := by
        by_contra hc
        push_neg at hc
        have h1 : ((k : ℕ) : ℚ) ≤ ((500 : ℕ) : ℚ) := by exact_mod_cast hc
        push_cast at h1
        have h2 : (k : ℚ) / 100 ≤ (500 : ℚ) / 100 := by gcongr
        have h3 : (500 : ℚ) / 100 = 5 := by norm_num
        linarith
      have : ((501 : ℕ) : ℚ) ≤ ((k : ℕ) : ℚ) := by exact_mod_cast hk500
      push_cast at this
      have hq501 : (501 : ℚ) / 100 ≤ (k : ℚ) / 100 := by gcongr
      linarith
    · intro hq5
      have hk500 : k ≤ 500 := by
        by_contra hc
        push_neg at hc
        have : ((501 : ℕ) : ℚ) ≤ ((k : ℕ) : ℚ) := by exact_mod_cast hc
        push_cast at this
        have : (501 : ℚ) / 100 ≤ (k : ℚ) / 100 := by gcongr
        linarith
      rcases Nat.lt_or_ge k 500 with h499 | h500
      · have : ((k : ℕ) : ℚ) ≤ ((499 : ℕ) : ℚ) := by exact_mod_cast (by omega : k ≤ 499)
        push_cast at this
        have hq499 : (k : ℚ) / 100 ≤ (499 : ℚ) / 100 := by gcongr
        linarith
      · have hk5 : k = 500 := by omega
        subst hk5
        push_cast
        exact float64Pos_five

/-- The quantized stop distance of a guarded position is k/100 for some
natural k at most 10000. -/
theorem quant2_pct_form (current stopV : ℚ) (hc : 0 < current) (hs : 0 < stopV)
    (hlt : stopV < current) :
    ∃ k : ℕ, k ≤ 10000 ∧ quant2 ((current - stopV) / current * 100) = (k : ℚ) / 100 := by
  set x := (current - stopV) / current * 100 with hx
  have hx0 : 0 < x := by
    rw [hx]
    have : 0 < (current - stopV) / current := div_pos (by linarith) hc
    positivity
  have hx100 : x < 100 := by
    rw [hx]
    have h1 : (current - stopV) / current < 1 := by
      rw [div_lt_one hc]
      linarith
    nlinarith
  have hrlo : (0 : ℤ) ≤ rne (x * 100) := by
    by_contra h
    push_neg at h
    have h1 : (rne (x * 100) : ℚ) ≤ -1 := by
      have : rne (x * 100) ≤ -1 := by omega
      exact_mod_cast this
    have h2 := le_rne (x * 100)
    nlinarith
  have hrhi : rne (x * 100) ≤ 10000 := by
    by_contra h
    push_neg at h
    have h1 : (10001 : ℚ) ≤ (rne (x * 100) : ℚ) := by
      have : (10001 : ℤ) ≤ rne (x * 100) := by omega
      exact_mod_cast this
    have h2 := rne_le (x * 100)
    nlinarith
  refine ⟨(rne (x * 100)).toNat, by omega, ?_⟩
  rw [quant2]
  congr 1
  have : ((rne (x * 100)).toNat : ℤ) = rne (x * 100) := Int.toNat_of_nonneg hrlo
  exact_mod_cast this.symm

/-- C4 amended: for a position with parsed positive price and stop, the
status is hit exactly when currentPrice is at most the stop; otherwise the
source compares the binary64 image of the quantized pctToStop against the
Decimal threshold, reporting approaching on success and nothing on
failure; at the default threshold 5 that comparison coincides with the
exact pctToStop <= 5, boundary inclusive.  Positions without a stop are
skipped. -/
theorem check_stops_status (t : String) (current stopV threshold : ℚ)
    (hc : 0 < current) (hs : 0 < stopV) :
    (processPosition threshold ⟨t, some current, none⟩ = none) ∧
    (current ≤ stopV →
      processPosition threshold ⟨t, some current, some (some stopV)⟩
        = some ⟨t, float64 current, float64 stopV,
            float64 (quant2 ((current - stopV) / current * 100)), "hit"⟩) ∧
    (stopV < current → float64 (quant2 ((current - stopV) / current * 100)) ≤ threshold →
      processPosition threshold ⟨t, some current, some (some stopV)⟩
        = some ⟨t, float64 current, float64 stopV,
            float64 (quant2 ((current - stopV) / current * 100)), "approaching"⟩) ∧
    (stopV < current → ¬ float64 (quant2 ((current - stopV) / current * 100)) ≤ threshold →
      processPosition threshold ⟨t, some current, some (some stopV)⟩ = none) ∧
    (threshold = 5 → stopV < current →
      (float64 (quant2 ((current - stopV) / current * 100)) ≤ threshold ↔
        quant2 ((current - stopV) / current * 100) ≤ threshold)) := by
  have hguard : ¬ (current ≤ 0 ∨ stopV ≤ 0) := by
    push_neg
    exact ⟨hc, hs⟩
  refine ⟨rfl, ?_, ?_, ?_, ?_⟩
  · intro hhit
    simp only [processPosition]
    rw [if_neg hguard, if_pos hhit, if_pos (by decide : ("hit" : String) ≠ "ok")]
  · intro hnl hfl
    simp only [processPosition]
    rw [if_neg hguard, if_neg (not_le.mpr hnl), if_pos hfl,
      if_pos (by decide : ("approaching" : String) ≠ "ok")]
  · intro hnl hnf
    simp only [processPosition]
    rw [if_neg hguard, if_neg (not_le.mpr hnl), if_neg hnf,
      if_neg (by simp : ¬ ("ok" : String) ≠ "ok")]
  · intro hth hnl
    subst hth
    obtain ⟨k, hk, hkeq⟩ := quant2_pct_form current stopV hc hs hnl
    rw [hkeq]
    exact float64_le_five_iff k hk

set_option maxRecDepth 8000 in
unseal Rat.mul Rat.add Rat.sub Rat.inv in
/-- C4 counterexample: with configured threshold 0.1 and a position at
price 1000 with stop 999, pctToStop quantizes to exactly 0.10 = the
threshold, so the claim requires an approaching alert; but
float(Decimal("0.10")) is strictly above 1/10, so the source reports no
alert. -/
theorem check_stops_boundary_ce :
    quant2 ((1000 - 999) / 1000 * 100 : ℚ) = 1 / 10 ∧
    ((1 : ℚ) / 10 ≤ 1 / 10) ∧
    (999 : ℚ) < 1000 ∧
    processPosition (1 / 10) ⟨"T", some 1000, some (some 999)⟩ = none := by
  decide

set_option maxRecDepth 8000 in
unseal Rat.mul Rat.add Rat.sub Rat.inv in
/-- C4 witness: the end-to-end scenario of the spec, price 95 and stop 92
at threshold 5, yields an approaching alert. -/
theorem check_stops_status_witness :
    (0 : ℚ) < 95 ∧ (0 : ℚ) < 92 ∧
    processPosition 5 ⟨"XYZ", some 95, some (some 92)⟩
      = some ⟨"XYZ", float64 95, float64 92,
          float64 (quant2 ((95 - 92) / 95 * 100)), "approaching"⟩ :=
  ⟨by decide, by decide,
    (check_stops_status "XYZ" 95 92 5 (by decide) (by decide)).2.2.1
      (by decide) (by decide)⟩

/-- C10: positions with an absent stop, an unparseable currentPrice or
stop, or a non-positive parsed value are skipped and produce no alert;
conversely an emitted alert implies both parsed values were strictly
positive, so the division by currentPrice always has a positive divisor. -/
theorem check_stops_skip_guard (t : String) (cp : Option ℚ) (sp : Option (Option ℚ))
    (current stopV threshold : ℚ) (a : StopAlert) :
    processPosition threshold ⟨t, cp, none⟩ = none ∧
    processPosition threshold ⟨t, none, sp⟩ = none ∧
    processPosition threshold ⟨t, cp, some none⟩ = none ∧
    (current ≤ 0 ∨ stopV ≤ 0 →
      processPosition threshold ⟨t, some current, some (some stopV)⟩ = none) ∧
    (processPosition threshold ⟨t, some current, some (some stopV)⟩ = some a →
      0 < current ∧ 0 < stopV) := by
  refine ⟨rfl, ?_, ?_, ?_, ?_⟩
  · cases sp with
    | none => rfl
    | some sq => cases sq <;> rfl
  · cases cp <;> rfl
  · intro hbad
    simp only [processPosition]
    rw [if_pos hbad]
  · intro hsome
    by_contra hcon
    push_neg at hcon
    have hbad : current ≤ 0 ∨ stopV ≤ 0 := by
      rcases le_or_lt current 0 with h | h
      · exact Or.inl h
      · exact Or.inr (hcon h)
    simp only [processPosition] at hsome
    rw [if_pos hbad] at hsome
    exact Option.noConfusion hsome

set_option maxRecDepth 8000 in
unseal Rat.mul Rat.add Rat.sub Rat.inv in
/-- C10 witness: concrete skipped positions and a concrete emitted alert
with positive parsed values. -/
theorem check_stops_skip_guard_witness :
    processPosition 5 ⟨"T", some 10, none⟩ = none ∧
    processPosition 5 ⟨"T", none, some (some 5)⟩ = none ∧
    processPosition 5 ⟨"T", some 10, some none⟩ = none ∧
    processPosition 5 ⟨"T", some 0, some (some 5)⟩ = none ∧
    ((0 : ℚ) < 10 ∧ (0 : ℚ) < 49 / 5) :=
  ⟨(check_stops_skip_guard "T" (some 10) (some (some 5)) 0 5 5 ⟨"T", 0, 0, 0, "x"⟩).1,
   (check_stops_skip_guard "T" (some 10) (some (some 5)) 0 5 5 ⟨"T", 0, 0, 0, "x"⟩).2.1,
   (check_stops_skip_guard "T" (some 10) (some (some 5)) 0 5 5 ⟨"T", 0, 0, 0, "x"⟩).2.2.1,
   (check_stops_skip_guard "T" (some 10) (some (some 5)) 0 5 5 ⟨"T", 0, 0, 0, "x"⟩).2.2.2.1
     (by decide),
   (check_stops_skip_guard "T" (some 10) (some (some 5)) 10 (49/5) 5
       ⟨"T", float64 10, float64 (49/5), float64 (quant2 ((10 - 49/5) / 10 * 100)), "approaching"⟩).2.2.2.2
     (by decide)⟩

unseal Rat.mul Rat.add Rat.sub Rat.inv in
/-- C7 counterexample: with the default threshold 1, the inputs -1.004 and
-1.0 both quantize to -1.00, yet the source alerts on the first and not on
the second: the comparison uses the unquantized Decimal, so the alert
decision is not a function of the quantized value, and at -1.004 it
disagrees with the claimed quantize-then-compare rule. -/
theorem drawdown_not_quantized_ce :
    (portfolio_drawdown 1 (-(251 : ℚ)/250)).alert = true ∧
    (portfolio_drawdown 1 (-1 : ℚ)).alert = false ∧
    quant2 (-(251 : ℚ)/250) = quant2 (-1 : ℚ) ∧
    quant2 (-(251 : ℚ)/250) = -1 := by
  decide

/-- C7 amended: the drawdown evaluator raises the alert exactly when the
raw (unquantized) dailyPnlPct is strictly below -threshold; the
quantization to two decimal places applies only to the reported value,
which then goes through float(). -/
theorem drawdown_alert_characterisation (threshold pnl : ℚ) :
    ((portfolio_drawdown threshold pnl).alert = true ↔ pnl < -threshold) ∧
    (portfolio_drawdown threshold pnl).dailyPnlPct = float64 (quant2 pnl) := by
  constructor
  · simp [portfolio_drawdown]
  · rfl

/-- Membership in a stable insertion. -/
theorem mem_insertLe {α : Type} (le : α → α → Bool) (x a : α) (l : List α) :
    a ∈ insertLe le x l ↔ a = x ∨ a ∈ l := by
  induction l with
  | nil => simp [insertLe]
  | cons y t ih =>
      rw [insertLe]
      split_ifs with h <;> simp only [List.mem_cons, ih] <;> tauto

/-- Sorting preserves membership. -/
theorem mem_stableSort {α : Type} (le : α → α → Bool) (l : List α) (a : α) :
    a ∈ stableSort le l ↔ a ∈ l := by
  have key : ∀ (l : List α) (acc : List α),
      (a ∈ l.foldl (fun acc x => insertLe le x acc) acc ↔ a ∈ acc ∨ a ∈ l) := by
    intro l
    induction l with
    | nil => intro acc; simp
    | cons y t ih =>
        intro acc
        rw [List.foldl_cons, ih, mem_insertLe]
        simp only [List.mem_cons]
        tauto
  rw [stableSort, key]
  simp

/-- Insertion grows the length by one. -/
theorem length_insertLe {α : Type} (le : α → α → Bool) (x : α) (l : List α) :
    (insertLe le x l).length = l.length + 1 := by
  induction l with
  | nil => rfl
  | cons y t ih =>
      rw [insertLe]
      split_ifs with h <;> simp [ih]

/-- Sorting preserves length. -/
theorem length_stableSort {α : Type} (le : α → α → Bool) (l : List α) :
    (stableSort le l).length = l.length := by
  have key : ∀ (l : List α) (acc : List α),
      (l.foldl (fun acc x => insertLe le x acc) acc).length = acc.length + l.length := by
    intro l
    induction l with
    | nil => intro acc; simp
    | cons y t ih =>
        intro acc
        rw [List.foldl_cons, ih, length_insertLe]
        simp only [List.length_cons]
        omega
  rw [stableSort, key]
  simp

/-- C3 counterexample: with previous persisted fingerprints ["aaaa"] and
no headlines in the current run, the persisted set is recomputed from the
current run only, so "aaaa" is dropped even though the 500-entry cap is
nowhere near exceeded; the claim requires it to remain persisted. -/
theorem persisted_news_drops_previous_ce :
    persisted_news_hashes ["aaaa"] [] = [] ∧
    "aaaa" ∉ persisted_news_hashes ["aaaa"] [] ∧
    (["aaaa"] : List String).length ≤ 500 := by
  refine ⟨rfl, by simp [persisted_news_hashes, stableSort, List.dedup], by simp⟩

/-- C3 amended: the persisted newsHashes is computed from the current
run's fingerprints alone (previous fingerprints not seen again are
dropped): it never exceeds 500 entries, contains only current-run
fingerprints, and when the current run has at most 500 distinct
fingerprints it is exactly their set. -/
theorem persisted_news_hashes_characterisation (prev digests : List String) :
    (persisted_news_hashes prev digests).length ≤ 500 ∧
    (persisted_news_hashes prev digests).toFinset ⊆ digests.toFinset ∧
    (digests.dedup.length ≤ 500 →
      (persisted_news_hashes prev digests).toFinset = digests.toFinset) := by
  rw [persisted_news_hashes]
  set s := stableSort (fun a b => decide (a ≤ b)) digests.dedup with hs
  have hlen : s.length = digests.dedup.length := by
    rw [hs, length_stableSort]
  have hmem : ∀ x, x ∈ s ↔ x ∈ digests := by
    intro x
    rw [hs, mem_stableSort, List.mem_dedup]
  refine ⟨?_, ?_, ?_⟩
  · rw [List.length_drop]
    omega
  · intro x hx
    rw [List.mem_toFinset] at hx ⊢
    exact (hmem x).mp (List.mem_of_mem_drop hx)
  · intro hle
    have hdrop : s.length - 500 = 0 := by omega
    rw [hdrop, List.drop_zero]
    ext x
    rw [List.mem_toFinset, List.mem_toFinset, hmem]

/-- C3 witness: the characterisation applied to a three-element digest
list with one duplicate. -/
theorem persisted_news_hashes_characterisation_witness :
    (persisted_news_hashes ["zzzz"] ["b", "a", "b"]).length ≤ 500 ∧
    (persisted_news_hashes ["zzzz"] ["b", "a", "b"]).toFinset
      ⊆ (["b", "a", "b"] : List String).toFinset ∧
    ((["b", "a", "b"] : List String).dedup.length ≤ 500) ∧
    (persisted_news_hashes ["zzzz"] ["b", "a", "b"]).toFinset
      = (["b", "a", "b"] : List String).toFinset :=
  ⟨(persisted_news_hashes_characterisation ["zzzz"] ["b", "a", "b"]).1,
   (persisted_news_hashes_characterisation ["zzzz"] ["b", "a", "b"]).2.1,
   by decide,
   (persisted_news_hashes_characterisation ["zzzz"] ["b", "a", "b"]).2.2 (by decide)⟩

set_option maxRecDepth 8000 in
unseal Rat.mul Rat.add Rat.sub Rat.inv in
/-- C2 counterexample: on 34 closes at 10 followed by a close at 5 (with
the default periods), the previous close (10) is at/above the previous
Hull value (10) and the current close (5) is below the current Hull value,
so the claim requires hullCross = bearish; analyze_closes, which compares
the current close against both Hull values, reports neutral. -/
theorem analyze_closes_cross_ce :
    (analyze_closes "T" (List.replicate 34 (10:ℚ) ++ [5]) 10 30 30).map PhaseRecord.hmaCross
        = some "neutral" ∧
    (analyze_closes "T" (List.replicate 34 (10:ℚ) ++ [5]) 10 30 30).map PhaseRecord.hmaPrev
        = some 10 ∧
    (analyze_closes "T" (List.replicate 34 (10:ℚ) ++ [5]) 10 30 30).map
        (fun r => decide ((5:ℚ) < r.hma)) = some true ∧
    lastD (List.replicate 34 (10:ℚ) ++ [5]).dropLast = 10 ∧
    lastD (List.replicate 34 (10:ℚ) ++ [5]) = 5 := by
  decide

/-- C2 amended: the hullCross of analyze_closes (phase_core.py, the
variant the briefing pipeline runs) is a function of the current close
against the current and previous Hull values: bearish when the close is
below the current and above the previous Hull value, bullish in the
mirrored case, neutral otherwise.  The prev-close rule of the claim holds
in the get_phase.py variant (hma_cross_prev): there, bearish exactly when
the previous close is at/above the previous Hull value and the current
close is below the current Hull value, and bullish exactly in the
mirrored case. -/
theorem analyze_closes_cross_characterisation (t : String) (closes : List ℚ)
    (ep sp hp : ℕ) (r : PhaseRecord) (prevP p hv hpv : ℚ)
    (h : analyze_closes t closes ep sp hp = some r) :
    (r.hmaCross = "bearish" ↔ lastD closes < r.hma ∧ lastD closes > r.hmaPrev) ∧
    (r.hmaCross = "bullish" ↔ lastD closes > r.hma ∧ lastD closes < r.hmaPrev) ∧
    (r.hmaCross = "neutral" ↔
      ¬(lastD closes < r.hma ∧ lastD closes > r.hmaPrev) ∧
      ¬(lastD closes > r.hma ∧ lastD closes < r.hmaPrev)) ∧
    (hma_cross_prev prevP p hv hpv = "bearish" ↔ prevP ≥ hpv ∧ p < hv) ∧
    (hma_cross_prev prevP p hv hpv = "bullish" ↔ prevP ≤ hpv ∧ p > hv) := by
  have hcp1 : hma_cross_prev prevP p hv hpv = "bearish" ↔ prevP ≥ hpv ∧ p < hv := by
    rw [hma_cross_prev]
    split_ifs with hA hB
    · simp [hA]
    · simp only [show (("bullish" : String) = "bearish") = False from by simp, false_iff]
      exact hA
    · simp only [show (("neutral" : String) = "bearish") = False from by simp, false_iff]
      exact hA
  have hcp2 : hma_cross_prev prevP p hv hpv = "bullish" ↔ prevP ≤ hpv ∧ p > hv := by
    rw [hma_cross_prev]
    split_ifs with hA hB
    · simp only [show (("bearish" : String) = "bullish") = False from by simp, false_iff]
      intro hcon
      exact absurd hcon.2 (not_lt.mpr (le_of_lt hA.2))
    · simp [hB]
    · simp only [show (("neutral" : String) = "bullish") = False from by simp, false_iff]
      exact hB
  by_cases hg : closes = [] ∨ closes.length < sp
  · rw [analyze_closes, if_pos hg] at h
    exact absurd h (by simp)
  · rw [analyze_closes, if_neg hg] at h
    simp only [Option.some.injEq] at h
    subst h
    dsimp only
    set HP := (if 1 < closes.length then hma closes.dropLast hp else hma closes hp) with hHP
    refine ⟨?_, ?_, ?_, hcp1, hcp2⟩
    · split_ifs with hA hB <;> simp_all
    · split_ifs with hA hB
      · simp only [show (("bearish" : String) = "bullish") = False from by simp, false_iff]
        intro hcon
        exact absurd hcon.1 (not_lt.mpr (le_of_lt hA.1))
      · simp [hB]
      · simp only [show (("neutral" : String) = "bullish") = False from by simp, false_iff]
        exact hB
    · split_ifs with hA hB <;> simp_all

set_option maxRecDepth 8000 in
unseal Rat.mul Rat.add Rat.sub Rat.inv in
/-- C2 witness: the characterisation applied to a constant 30-close series
and to a concrete bearish prev-close crossing. -/
theorem analyze_closes_cross_characterisation_witness :
    (analyze_closes "T" (List.replicate 30 (10:ℚ)) 10 30 30
        = some ⟨"T", 5, 10, 10, 10, 10, 10, "flat", "neutral"⟩) ∧
    ((("neutral" : String) = "bearish" ↔
        lastD (List.replicate 30 (10:ℚ)) < 10 ∧ lastD (List.replicate 30 (10:ℚ)) > 10) ∧
     (("neutral" : String) = "bullish" ↔
        lastD (List.replicate 30 (10:ℚ)) > 10 ∧ lastD (List.replicate 30 (10:ℚ)) < 10) ∧
     (("neutral" : String) = "neutral" ↔
        ¬(lastD (List.replicate 30 (10:ℚ)) < 10 ∧ lastD (List.replicate 30 (10:ℚ)) > 10) ∧
        ¬(lastD (List.replicate 30 (10:ℚ)) > 10 ∧ lastD (List.replicate 30 (10:ℚ)) < 10)) ∧
     (hma_cross_prev 10 5 9 10 = "bearish" ↔ (10:ℚ) ≥ 10 ∧ (5:ℚ) < 9) ∧
     (hma_cross_prev 10 5 9 10 = "bullish" ↔ (10:ℚ) ≤ 10 ∧ (5:ℚ) > 9)) :=
  ⟨by decide,
   analyze_closes_cross_characterisation "T" (List.replicate 30 (10:ℚ)) 10 30 30
     ⟨"T", 5, 10, 10, 10, 10, 10, "flat", "neutral"⟩ 10 5 9 10 (by decide)⟩

/-- C5: when the loaded prior state maps AAA to phase 3 and the current
run classifies AAA as phase 4 (a successfully classified, error-free row),
the aggregator emits the transition line "AAA phase transition 3 -> 4"
among the phase transitions, appends the corresponding phase hard-alert
line to the hard alerts because (3,4) is in the default hard-transition
set, and does not add the transition line to the watch flags. -/
theorem phase_transition_roundtrip (prevMap : List (String × Json)) (row : PhaseRow)
    (hardInit : List String)
    (hprev : prevMap.lookup "AAA" = some (Json.num 3))
    (ht : row.ticker = "AAA") (hph : row.phase = Json.num 4) (herr : row.err = false) :
    "AAA phase transition 3 -> 4"
        ∈ (process_phase_rows prevMap default_phase_transition_pairs [row] hardInit).transitions ∧
    "Phase alert: AAA phase transition 3 -> 4 (hard-alert transition)."
        ∈ (process_phase_rows prevMap default_phase_transition_pairs [row] hardInit).hard ∧
    "AAA phase transition 3 -> 4."
        ∉ (process_phase_rows prevMap default_phase_transition_pairs [row] hardInit).watch := by
  have hphase : phase_as_int row.phase = some 4 := by
    rw [hph]
    decide
  have hprev4 : ((prevMap.lookup row.ticker).map phase_as_int).join = some 3 := by
    rw [ht, hprev]
    decide
  have hred : process_phase_rows prevMap default_phase_transition_pairs [row] hardInit
      = phase_row_step prevMap default_phase_transition_pairs ⟨[], hardInit, []⟩ row := by
    simp only [process_phase_rows, List.filter, herr, Bool.not_false, stableSort,
      List.foldl, insertLe]
  rw [hred, phase_row_step, hprev4, hphase]
  simp only [ht]
  rw [if_pos (by decide : (4 : ℤ) ≠ 3),
    if_pos (by decide : ((3 : ℤ), (4 : ℤ)) ∈ default_phase_transition_pairs)]
  simp only [if_true]
  by_cases hbc : jsonEqStr row.hmaCross "bearish"
  · rw [if_pos hbc]
    refine ⟨?_, ?_, ?_⟩
    · simp only [List.nil_append, List.mem_singleton]
      decide
    · simp only [List.mem_append, List.mem_singleton]
      exact Or.inr (by decide)
    · simp only [List.nil_append, List.mem_append, List.mem_singleton, List.mem_cons,
        List.not_mem_nil, or_false]
      decide
  · rw [if_neg hbc]
    refine ⟨?_, ?_, ?_⟩
    · simp only [List.nil_append, List.mem_singleton]
      decide
    · simp only [List.mem_append, List.mem_singleton]
      exact Or.inr (by decide)
    · simp only [List.nil_append, List.mem_append, List.mem_singleton, List.mem_cons,
        List.not_mem_nil, or_false]
      decide

/-- C5 witness: the round-trip applied to the concrete prior state
mapping AAA to 3 and a concrete AAA phase-4 row. -/
theorem phase_transition_roundtrip_witness :
    (([("AAA", Json.num 3)] : List (String × Json)).lookup "AAA" = some (Json.num 3)) ∧
    ("AAA" : String) = "AAA" ∧ Json.num 4 = Json.num 4 ∧ false = false ∧
    ("AAA phase transition 3 -> 4"
        ∈ (process_phase_rows [("AAA", Json.num 3)] default_phase_transition_pairs
            [⟨"AAA", Json.num 4, Json.null, Json.null, false⟩] []).transitions ∧
     "Phase alert: AAA phase transition 3 -> 4 (hard-alert transition)."
        ∈ (process_phase_rows [("AAA", Json.num 3)] default_phase_transition_pairs
            [⟨"AAA", Json.num 4, Json.null, Json.null, false⟩] []).hard ∧
     "AAA phase transition 3 -> 4."
        ∉ (process_phase_rows [("AAA", Json.num 3)] default_phase_transition_pairs
            [⟨"AAA", Json.num 4, Json.null, Json.null, false⟩] []).watch) :=
  ⟨rfl, rfl, rfl, rfl,
   phase_transition_roundtrip [("AAA", Json.num 3)]
     ⟨"AAA", Json.num 4, Json.null, Json.null, false⟩ [] rfl rfl rfl rfl⟩

/-- C8: loading the persisted state never fails past the loader: an
absent file, a read or parse exception, and a parsed document that is not
an object all yield the empty state; and with the empty state the run is a
baseline run: the prior phase map and fingerprint list extract as empty,
every headline digest counts as first-seen, and no phase transition is
produced. -/
theorem load_state_corrupt_baseline (j : Json) (hj : j.isObj = false)
    (digests : List String) (pairs : List (ℤ × ℤ)) (rows : List PhaseRow)
    (hardInit : List String) :
    load_state .absent = [] ∧ load_state .failure = [] ∧ load_state (.ok j) = [] ∧
    phaseByTickerOf [] = [] ∧ newsHashesOf [] = [] ∧
    new_digests [] digests = digests ∧
    (process_phase_rows [] pairs rows hardInit).transitions = [] := by
  refine ⟨rfl, rfl, ?_, rfl, rfl, ?_, ?_⟩
  · cases j <;> first
      | rfl
      | (simp [Json.isObj] at hj)
  · simp [new_digests]
  · have key : ∀ (l : List PhaseRow) (acc : LoopOut),
        (l.foldl (phase_row_step [] pairs) acc).transitions = acc.transitions := by
      intro l
      induction l with
      | nil => intro acc; rfl
      | cons r t ih =>
          intro acc
          rw [List.foldl_cons, ih, phase_row_step]
          cases hph : phase_as_int r.phase <;>
            split_ifs <;> rfl
    simp only [process_phase_rows]
    exact key _ _

/-- C8 witness: the baseline behaviour at a concrete non-object document
(an empty JSON array), concrete digests and a concrete phase row. -/
theorem load_state_corrupt_baseline_witness :
    (Json.arr []).isObj = false ∧
    (load_state .absent = [] ∧ load_state .failure = [] ∧ load_state (.ok (Json.arr [])) = [] ∧
     phaseByTickerOf [] = [] ∧ newsHashesOf [] = [] ∧
     new_digests [] ["d1", "d2"] = ["d1", "d2"] ∧
     (process_phase_rows [] default_phase_transition_pairs
        [⟨"T", Json.num 3, Json.str "falling", Json.str "bearish", false⟩] []).transitions = []) :=
  ⟨rfl, load_state_corrupt_baseline (Json.arr []) rfl ["d1", "d2"]
    default_phase_transition_pairs
    [⟨"T", Json.num 3, Json.str "falling", Json.str "bearish", false⟩] []⟩
